import Mathlib

/-
Verification of the numerical core of SyntheticFlatGUI (SyntheticFlatGUI.py).

The Python source is shallowly embedded: images are total functions from
pixel coordinates (and channel) to exact rationals, numpy arrays become
lists or functions, and the imperative loops become folds over explicit
index lists in the source's iteration order.  Floating point arithmetic
(numpy float64) is modelled by exact rational/real arithmetic; quantities
the source obtains by `int(...)` truncation of nonnegative floats are
modelled by exact integer floors (for `math.sqrt` this is the integer
square root, defined below with a fuel-based recursion so that it computes
inside the kernel).
-/

namespace SFG

/-- `RADIAL_RESOLUTION` from the static settings of the source (line 23). -/
def RADIAL_RESOLUTION : ℕ := 100000

/-- `IGNORE_EDGE` from the static settings of the source (line 21). -/
def IGNORE_EDGE : ℕ := 10

/-- `IGNORE_RADII` from the static settings of the source (line 22). -/
def IGNORE_RADII : ℕ := 5

/-- Fuel-driven integer square root (digit-by-digit on base-4 digits).
With enough fuel this computes `⌊√n⌋`; see `isqrtAux_spec`. -/
def isqrtAux : ℕ → ℕ → ℕ
  | 0, _ => 0
  | fuel + 1, n =>
    if n < 2 then n
    else if (2 * isqrtAux fuel (n / 4) + 1) * (2 * isqrtAux fuel (n / 4) + 1) ≤ n
    then 2 * isqrtAux fuel (n / 4) + 1
    else 2 * isqrtAux fuel (n / 4)

/-- Integer square root `⌊√n⌋`; `n + 1` units of fuel always suffice
(`isqrt_eq_sqrt`).  This models `int(math.sqrt ...)` on integer inputs,
real-arithmetic exact. -/
def isqrt (n : ℕ) : ℕ := isqrtAux (n + 1) n

theorem isqrtAux_spec : ∀ fuel n : ℕ, n < 4 ^ fuel →
    isqrtAux fuel n * isqrtAux fuel n ≤ n ∧ n < (isqrtAux fuel n + 1) * (isqrtAux fuel n + 1) := by
  intro fuel
  induction fuel with
  | zero =>
    intro n hn
    simp only [pow_zero, Nat.lt_one_iff] at hn
    subst hn
    simp [isqrtAux]
  | succ fuel ih =>
    intro n hn
    by_cases h2 : n < 2
    · constructor
      · simp only [isqrtAux, if_pos h2]
        interval_cases n <;> simp
      · simp only [isqrtAux, if_pos h2]
        nlinarith
    · have hdiv : n / 4 < 4 ^ fuel := by
        have h4 : n < 4 * 4 ^ fuel := by
          have he : (4:ℕ) ^ (fuel + 1) = 4 * 4 ^ fuel := by ring
          omega
        exact Nat.div_lt_of_lt_mul h4
      obtain ⟨hlo, hhi⟩ := ih (n / 4) hdiv
      simp only [isqrtAux, if_neg h2]
      generalize hg : isqrtAux fuel (n / 4) = r0 at hlo hhi
      have hrlo : (2 * r0) * (2 * r0) ≤ n := by
        have h1 : (2 * r0) * (2 * r0) = 4 * (r0 * r0) := by ring
        omega
      have hrhi : n < (2 * r0 + 2) * (2 * r0 + 2) := by
        have h1 : n < 4 * (n / 4) + 4 := by omega
        have h3 : 4 * ((r0 + 1) * (r0 + 1)) = (2 * r0 + 2) * (2 * r0 + 2) := by ring
        omega
      by_cases hb : (2 * r0 + 1) * (2 * r0 + 1) ≤ n
      · rw [if_pos hb]
        have h4 : (2 * r0 + 1 + 1) * (2 * r0 + 1 + 1) = (2 * r0 + 2) * (2 * r0 + 2) := by ring
        omega
      · rw [if_neg hb]
        omega

theorem isqrt_eq_sqrt (n : ℕ) : isqrt n = Nat.sqrt n := by
  have hfuel : n < 4 ^ (n + 1) := by
    calc n < 4 ^ n := Nat.lt_pow_self (by norm_num) n
      _ ≤ 4 ^ (n + 1) := Nat.pow_le_pow_right (by norm_num) (Nat.le_succ n)
  obtain ⟨hlo, hhi⟩ := isqrtAux_spec (n + 1) n hfuel
  exact Nat.eq_sqrt.2 ⟨hlo, hhi⟩

/-- Models `abs(i - height/2)` scaled by 2, i.e. `|2*i - height|`, which is an
integer even when `height` is odd.  `dist_from_center` (source lines 476-480)
computes `dx = int(abs(i - height/2))`, which equals `abs_twice_off i h / 2`. -/
def abs_twice_off (i : ℤ) (h : ℕ) : ℕ := (2 * i - (h : ℤ)).natAbs

/-- `dx = int(abs(i - height/2))` of the source (line 477), exact:
truncation of the nonnegative real `|i - h/2|` is `⌊|2i - h|/2⌋`. -/
def dist_dx (i : ℤ) (h : ℕ) : ℕ := abs_twice_off i h / 2

/-- The memoization key of `dist_from_center` (source lines 476-480): the pair
`(dx, dy)` sorted ascending (`dx, dy = sorted([dx, dy])`).  The returned
distance is `cached_dist` applied to this key, i.e. `√(dx² + dy²)`, so equal
keys give equal distances. -/
def dist_key (i j : ℤ) (h w : ℕ) : ℕ × ℕ :=
  (min (dist_dx i h) (dist_dx j w), max (dist_dx i h) (dist_dx j w))

/-- The squared Euclidean distance computed by `cached_dist` (source lines
483-485) on the truncated offsets: `dx² + dy²`.  The float returned by the
source is the square root of this integer, so equality of these squares is
equality of the distances. -/
def dist_from_center_sq (i j : ℤ) (h w : ℕ) : ℕ :=
  dist_dx i h ^ 2 + dist_dx j w ^ 2

/-- `int(dist_from_center(i, j, h, w))` for natural-number pixel indices:
the integer radius used by `calc_rad_profile` (source line 182). -/
def int_dist (i j h w : ℕ) : ℕ := isqrt (dist_from_center_sq (i : ℤ) (j : ℤ) h w)

/-- Squared distance for natural-number pixel indices (used by
`calc_histograms` and `calc_synthetic_flat`). -/
def dist_sq_of (i j h w : ℕ) : ℕ := dist_from_center_sq (i : ℤ) (j : ℤ) h w

/-- Arithmetic mean `np.mean` of a list of samples, as an exact rational.
numpy returns NaN on an empty input; the model returns `0` there (theorems
about means carry nonemptiness hypotheses where that matters). -/
def listMean (l : List ℚ) : ℚ := l.sum / (l.length : ℚ)

/-- Maximum `np.max` of a list of samples.  numpy raises on an empty input;
the model returns `0` there. -/
def listMax : List ℚ → ℚ
  | [] => 0
  | x :: xs => xs.foldl max x

/-- Minimum `np.min` of a list of samples (`0` on the empty list). -/
def listMin : List ℚ → ℚ
  | [] => 0
  | x :: xs => xs.foldl min x

/-- Median `np.median`: sort ascending, take the middle element (odd length)
or the mean of the two middle elements (even length); `0` on the empty list
where numpy returns NaN. -/
def listMedian (l : List ℚ) : ℚ :=
  let s := l.mergeSort (fun a b => decide (a ≤ b))
  if l.length % 2 = 1 then s.getD (l.length / 2) 0
  else (s.getD (l.length / 2 - 1) 0 + s.getD (l.length / 2) 0) / 2

/-- One pass of `scipy.stats.sigmaclip` with symmetric bounds `sigma`:
keep `x` with `mean - sigma*std ≤ x ≤ mean + sigma*std`, where `std` is the
population standard deviation.  Since the bounds are symmetric this is
exactly `(x - mean)² ≤ sigma² * variance`, which avoids the square root. -/
def clip_pass (sigma : ℚ) (l : List ℚ) : List ℚ :=
  l.filter fun x =>
    decide ((x - listMean l) ^ 2 ≤ sigma ^ 2 * listMean (l.map fun y => (y - listMean l) ^ 2))

/-- The iteration of `scipy.stats.sigmaclip`: repeat `clip_pass` until a pass
removes no sample.  Each removing pass strictly shrinks the list, so
`l.length + 1` units of fuel always reach the fixpoint. -/
def sigmaclipIter : ℕ → ℚ → List ℚ → List ℚ
  | 0, _, l => l
  | fuel + 1, sigma, l =>
    if (clip_pass sigma l).length = l.length then clip_pass sigma l
    else sigmaclipIter fuel sigma (clip_pass sigma l)

/-- `scipy.stats.sigmaclip(a, low=sigma, high=sigma)[0]`. -/
def scipy_sigmaclip (sigma : ℚ) (l : List ℚ) : List ℚ := sigmaclipIter (l.length + 1) sigma l

/-- `sigma_clip_mean` of the source (lines 532-535): mean of the
sigma-clipped samples. -/
def sigma_clip_mean (array : List ℚ) (sigma_clip : ℚ) : ℚ :=
  listMean (scipy_sigmaclip sigma_clip array)

/-- Value of a digit string, for the model of Python `float` parsing. -/
def digitsVal (s : List Char) : ℕ := s.foldl (fun a c => 10 * a + (c.toNat - 48)) 0

/-- Models Python `float(number)` on the nonnegative decimal literals the GUI
passes (for example `"0.5"`, `"2.0"`); other strings (on which Python would
raise) are mapped to `0`. -/
def parse_decimal (s : String) : ℚ :=
  match s.splitOn "." with
  | [a] => mkRat (digitsVal a.data) 1
  | [a, b] => mkRat (digitsVal a.data * 10 ^ b.length + digitsVal b.data) (10 ^ b.length)
  | _ => 0

/-- `apply_statistics` of the source (lines 516-529): dispatch on the
statistics name; `statistics[:10] == 'sigma clip'` is `String.take 10`,
and the trailing `else` returns `np.mean(array)`. -/
def apply_statistics (array : List ℚ) (statistics : String) : ℚ :=
  if statistics.take 10 = "sigma clip" then
    sigma_clip_mean array (parse_decimal ((statistics.drop 10).trim))
  else if statistics = "median" then listMedian array
  else if statistics = "min" then listMin array
  else if statistics = "max" then listMax array
  else listMean array

/-- C10: an unrecognized statistics name falls through every branch of
`apply_statistics` and silently yields the arithmetic mean of the samples
(no error is raised). -/
theorem C10_unrecognized_statistics_mean (array : List ℚ) (statistics : String)
    (hne : array ≠ [])
    (hsc : statistics.take 10 ≠ "sigma clip")
    (hmed : statistics ≠ "median")
    (hmin : statistics ≠ "min")
    (hmax : statistics ≠ "max") :
    apply_statistics array statistics = array.sum / (array.length : ℚ) := by
  unfold apply_statistics
  rw [if_neg hsc, if_neg hmed, if_neg hmin, if_neg hmax]
  rfl

/-- C10 witness: the unrecognized name `"average"` on samples `[1, 2, 3]`
takes the fall-through branch. -/
theorem C10_unrecognized_statistics_mean_witness :
    ([(1 : ℚ), 2, 3] ≠ [] ∧ "average".take 10 ≠ "sigma clip" ∧
     "average" ≠ "median" ∧ "average" ≠ "min" ∧ "average" ≠ "max") ∧
    apply_statistics [(1 : ℚ), 2, 3] "average" = ([(1 : ℚ), 2, 3].sum / (([(1 : ℚ), 2, 3].length : ℕ) : ℚ)) := by
  refine ⟨⟨by decide, by decide, by decide, by decide, by decide⟩,
    C10_unrecognized_statistics_mean [(1 : ℚ), 2, 3] "average"
      (by decide) (by decide) (by decide) (by decide) (by decide)⟩

theorem le_foldl_max (xs : List ℚ) : ∀ a : ℚ, a ≤ xs.foldl max a := by
  induction xs with
  | nil => intro a; exact le_refl a
  | cons y ys ih =>
    intro a
    exact le_trans (le_max_left a y) (ih (max a y))

theorem mem_le_foldl_max (xs : List ℚ) : ∀ a x : ℚ, x ∈ xs → x ≤ xs.foldl max a := by
  induction xs with
  | nil => intro a x hx; cases hx
  | cons y ys ih =>
    intro a x hx
    rcases List.mem_cons.1 hx with rfl | hx'
    · exact le_trans (le_max_right a x) (le_foldl_max ys (max a x))
    · exact ih (max a y) x hx'

theorem foldl_max_mem (xs : List ℚ) : ∀ a : ℚ, xs.foldl max a = a ∨ xs.foldl max a ∈ xs := by
  induction xs with
  | nil => intro a; exact Or.inl rfl
  | cons y ys ih =>
    intro a
    rw [List.foldl_cons]
    rcases ih (max a y) with heq | hmem
    · rcases le_total a y with hle | hle
      · right; rw [heq, max_eq_right hle]; exact List.mem_cons_self y ys
      · left; rw [heq, max_eq_left hle]
    · right; exact List.mem_cons_of_mem y hmem

theorem le_listMax {l : List ℚ} {x : ℚ} (hx : x ∈ l) : x ≤ listMax l := by
  cases l with
  | nil => cases hx
  | cons y ys =>
    rcases List.mem_cons.1 hx with rfl | hx'
    · exact le_foldl_max ys x
    · exact mem_le_foldl_max ys y x hx'

theorem listMax_mem {l : List ℚ} (hl : l ≠ []) : listMax l ∈ l := by
  cases l with
  | nil => exact absurd rfl hl
  | cons y ys =>
    rcases foldl_max_mem ys y with heq | hmem
    · rw [listMax, heq]; exact List.mem_cons_self y ys
    · exact List.mem_cons_of_mem y hmem

theorem listMax_le {l : List ℚ} {b : ℚ} (hl : l ≠ []) (hb : ∀ x ∈ l, x ≤ b) :
    listMax l ≤ b :=
  hb _ (listMax_mem hl)

/-- Dividing a list by its own positive maximum makes the new maximum
exactly `1`. -/
theorem listMax_div_self {l : List ℚ} (hl : l ≠ []) (hpos : 0 < listMax l) :
    listMax (l.map fun x => x / listMax l) = 1 := by
  have hne : (l.map fun x => x / listMax l) ≠ [] := by
    intro h
    exact hl (List.map_eq_nil_iff.1 h)
  apply le_antisymm
  · refine listMax_le hne ?_
    intro y hy
    rcases List.mem_map.1 hy with ⟨x, hx, rfl⟩
    rw [div_le_one hpos]
    exact le_listMax hx
  · have h1 : (1 : ℚ) ∈ l.map fun x => x / listMax l := by
      refine List.mem_map.2 ⟨listMax l, listMax_mem hl, ?_⟩
      exact div_self (ne_of_gt hpos)
    exact le_listMax h1

/-- One row of a radial profile: the normalized radius and the three
channel values (columns 0..3 of the numpy profile arrays). -/
structure ProfRow where
  rad : ℚ
  c1 : ℚ
  c2 : ℚ
  c3 : ℚ
deriving DecidableEq

/-- Column `c + 1` of a profile row, `c ∈ {0, 1, 2}` (the value columns). -/
def colv (c : ℕ) (r : ProfRow) : ℚ :=
  if c = 1 then r.c1 else if c = 2 then r.c2 else if c = 3 then r.c3 else r.rad

/-- `np.max(profile[:, c])` over the rows of a profile. -/
def colMax (l : List ProfRow) (c : ℕ) : ℚ := listMax (l.map (colv c))

/-- Divide the three value columns of a row by the per-channel maxima
`m1, m2, m3`, leaving the radius column untouched. -/
def norm_row (m1 m2 m3 : ℚ) (r : ProfRow) : ProfRow :=
  ⟨r.rad, r.c1 / m1, r.c2 / m2, r.c3 / m3⟩

/-- The normalization step of `calc_rad_profile` (source lines 292-297):
every profile variant (raw mean, uncut, cut, smoothed) is divided,
channel-wise, by the per-channel maximum of the final smoothed/resampled
profile.  In the source the maxima are re-read inside the loop, but
`np.max(rad_profile_smoothed[:, c+1])` is evaluated before the smoothed
column `c+1` itself is overwritten, so all four divisions of channel `c`
use the same maximum, which is what this definition computes. -/
def normalize_profiles (raw uncut cut smo : List ProfRow) :
    List ProfRow × List ProfRow × List ProfRow × List ProfRow :=
  (raw.map (norm_row (colMax smo 1) (colMax smo 2) (colMax smo 3)),
   uncut.map (norm_row (colMax smo 1) (colMax smo 2) (colMax smo 3)),
   cut.map (norm_row (colMax smo 1) (colMax smo 2) (colMax smo 3)),
   smo.map (norm_row (colMax smo 1) (colMax smo 2) (colMax smo 3)))

theorem colMax_norm_eq_one (l : List ProfRow) (c : ℕ)
    (hc : c = 1 ∨ c = 2 ∨ c = 3) (hne : l ≠ []) (hpos : 0 < colMax l c) :
    colMax (l.map (norm_row (colMax l 1) (colMax l 2) (colMax l 3))) c = 1 := by
  have hmapne : l.map (colv c) ≠ [] := fun h => hne (List.map_eq_nil_iff.1 h)
  have hfun : (colv c ∘ norm_row (colMax l 1) (colMax l 2) (colMax l 3)) =
      (fun x => x / colMax l c) ∘ colv c := by
    funext r
    rcases hc with rfl | rfl | rfl <;> simp [colv, norm_row, Function.comp]
  rw [show colMax (l.map (norm_row (colMax l 1) (colMax l 2) (colMax l 3))) c =
      listMax ((l.map (norm_row (colMax l 1) (colMax l 2) (colMax l 3))).map (colv c)) from rfl,
    List.map_map, hfun, ← List.map_map]
  exact listMax_div_self hmapne hpos

/-- C3: after the normalization step, the maximum of every value channel of
the final smoothed/resampled profile is exactly `1`, and the other three
variants are exactly the originals divided channel-wise by the per-channel
maxima of the (pre-normalization) smoothed profile.  The maxima are
positive for profiles produced by the pipeline (samples pass a positivity
filter); positivity is taken as a hypothesis here. -/
theorem C3_normalization (raw uncut cut smo : List ProfRow)
    (hne : smo ≠ [])
    (h1 : 0 < colMax smo 1) (h2 : 0 < colMax smo 2) (h3 : 0 < colMax smo 3) :
    (colMax (normalize_profiles raw uncut cut smo).2.2.2 1 = 1 ∧
     colMax (normalize_profiles raw uncut cut smo).2.2.2 2 = 1 ∧
     colMax (normalize_profiles raw uncut cut smo).2.2.2 3 = 1) ∧
    ((normalize_profiles raw uncut cut smo).1 =
       raw.map (norm_row (colMax smo 1) (colMax smo 2) (colMax smo 3)) ∧
     (normalize_profiles raw uncut cut smo).2.1 =
       uncut.map (norm_row (colMax smo 1) (colMax smo 2) (colMax smo 3)) ∧
     (normalize_profiles raw uncut cut smo).2.2.1 =
       cut.map (norm_row (colMax smo 1) (colMax smo 2) (colMax smo 3))) := by
  refine ⟨⟨?_, ?_, ?_⟩, rfl, rfl, rfl⟩
  · exact colMax_norm_eq_one smo 1 (Or.inl rfl) hne h1
  · exact colMax_norm_eq_one smo 2 (Or.inr (Or.inl rfl)) hne h2
  · exact colMax_norm_eq_one smo 3 (Or.inr (Or.inr rfl)) hne h3

/-- C3 witness: a two-row smoothed profile with positive channel maxima
`3, 2, 4`; the normalized smoothed profile has channel maxima `1`. -/
theorem C3_normalization_witness :
    (([⟨0, 1, 2, 4⟩, ⟨1, 3, 1, 1⟩] : List ProfRow) ≠ [] ∧
     0 < colMax [⟨0, 1, 2, 4⟩, ⟨1, 3, 1, 1⟩] 1 ∧
     0 < colMax [⟨0, 1, 2, 4⟩, ⟨1, 3, 1, 1⟩] 2 ∧
     0 < colMax [⟨0, 1, 2, 4⟩, ⟨1, 3, 1, 1⟩] 3) ∧
    (colMax (normalize_profiles [] [] [] [⟨0, 1, 2, 4⟩, ⟨1, 3, 1, 1⟩]).2.2.2 1 = 1 ∧
     colMax (normalize_profiles [] [] [] [⟨0, 1, 2, 4⟩, ⟨1, 3, 1, 1⟩]).2.2.2 2 = 1 ∧
     colMax (normalize_profiles [] [] [] [⟨0, 1, 2, 4⟩, ⟨1, 3, 1, 1⟩]).2.2.2 3 = 1) := by
  refine ⟨⟨by decide, by decide, by decide, by decide⟩, ?_⟩
  exact ((C3_normalization [] [] [] [⟨0, 1, 2, 4⟩, ⟨1, 3, 1, 1⟩]
    (by decide) (by decide) (by decide) (by decide)).1)

/-- An image plane stack: value at row `i`, column `j`, channel `c`.
Models the numpy array `image[i, j, c]` as a total function. -/
abbrev Image3 : Type := ℕ → ℕ → ℕ → ℚ

/-- The row slice `image[row, IGNORE_EDGE:-IGNORE_EDGE, c]` of
`corr_gradient` (source line 116): columns `IGNORE_EDGE .. w - IGNORE_EDGE - 1`. -/
def row_slice (img : Image3) (w row c : ℕ) : List ℚ :=
  (List.range' IGNORE_EDGE (w - 2 * IGNORE_EDGE)).map fun j => img row j c

/-- The column slice `image[IGNORE_EDGE:-IGNORE_EDGE, col, c]` (source line 125). -/
def col_slice (img : Image3) (h col c : ℕ) : List ℚ :=
  (List.range' IGNORE_EDGE (h - 2 * IGNORE_EDGE)).map fun i => img i col c

/-- The rows sampled by `corr_gradient` (source lines 112-115): skip
`row < IGNORE_EDGE` and `row > height - IGNORE_EDGE`, keep
`row % resolution_factor == 0`. -/
def sampled_rows (h rf : ℕ) : List ℕ :=
  (List.range h).filter fun row =>
    decide (¬(row < IGNORE_EDGE ∨ (row : ℤ) > (h : ℤ) - (IGNORE_EDGE : ℤ)) ∧ row % rf = 0)

/-- The columns sampled by `corr_gradient` (source lines 121-124). -/
def sampled_cols (w rf : ℕ) : List ℕ :=
  (List.range w).filter fun col =>
    decide (¬(col < IGNORE_EDGE ∨ (col : ℤ) > (w : ℤ) - (IGNORE_EDGE : ℤ)) ∧ col % rf = 0)

/-- `rowmeans` of `corr_gradient` (source line 116): the sigma-clipped
(sigma = 2) mean of each sampled row of channel `c`. -/
def rowmeans (img : Image3) (h w rf c : ℕ) : List ℚ :=
  (sampled_rows h rf).map fun row => listMean (scipy_sigmaclip 2 (row_slice img w row c))

/-- `colmeans` of `corr_gradient` (source line 125). -/
def colmeans (img : Image3) (h w rf c : ℕ) : List ℚ :=
  (sampled_cols w rf).map fun col => listMean (scipy_sigmaclip 2 (col_slice img h col c))

/-- `np.diff`: successive differences `l[i+1] - l[i]`. -/
def diffs (l : List ℚ) : List ℚ := (l.zip l.tail).map fun ab => ab.2 - ab.1

/-- `slope_y = np.mean(np.diff(rowmeans)) * height / resolution_factor`
(source line 117). -/
def slope_y (img : Image3) (h w rf c : ℕ) : ℚ :=
  listMean (diffs (rowmeans img h w rf c)) * (h : ℚ) / (rf : ℚ)

/-- `slope_x = np.mean(np.diff(colmeans)) * width / resolution_factor`
(source line 126). -/
def slope_x (img : Image3) (h w rf c : ℕ) : ℚ :=
  listMean (diffs (colmeans img h w rf c)) * (w : ℚ) / (rf : ℚ)

/-- The bilinear gradient of `corr_gradient` (source lines 129-132):
`X * slope_x + Y * slope_y - (slope_x + slope_y) / 2`, where
`X = j / (w - 1)` and `Y = i / (h - 1)` are the `np.linspace(0, 1, ...)`
meshgrid coordinates of pixel `(i, j)`. -/
def gradient_at (sx sy : ℚ) (h w i j : ℕ) : ℚ :=
  (j : ℚ) / ((w : ℚ) - 1) * sx + (i : ℚ) / ((h : ℚ) - 1) * sy - (sx + sy) / 2

/-- One iteration of the channel loop of `corr_gradient` (source lines
110-133): measure both slopes of channel `c` on the current image, then
subtract the bilinear gradient from every pixel of channel `c`. -/
def corr_step (h w rf : ℕ) (img : Image3) (c : ℕ) : Image3 :=
  fun i j c' =>
    if c' = c then
      img i j c' - gradient_at (slope_x img h w rf c) (slope_y img h w rf c) h w i j
    else img i j c'

/-- `corr_gradient` (source lines 105-139): the channel loop, mutating the
image channel by channel (`for c in range(colors)`). -/
def corr_gradient (img : Image3) (h w colors rf : ℕ) : Image3 :=
  (List.range colors).foldl (corr_step h w rf) img

theorem rowmeans_congr {a b : Image3} {h w rf c : ℕ} (hab : ∀ i j, a i j c = b i j c) :
    rowmeans a h w rf c = rowmeans b h w rf c := by
  unfold rowmeans
  refine List.map_congr_left fun row _ => ?_
  have : row_slice a w row c = row_slice b w row c :=
    List.map_congr_left fun j _ => hab row j
  rw [this]

theorem colmeans_congr {a b : Image3} {h w rf c : ℕ} (hab : ∀ i j, a i j c = b i j c) :
    colmeans a h w rf c = colmeans b h w rf c := by
  unfold colmeans
  refine List.map_congr_left fun col _ => ?_
  have : col_slice a h col c = col_slice b h col c :=
    List.map_congr_left fun i _ => hab i col
  rw [this]

theorem slope_y_congr {a b : Image3} {h w rf c : ℕ} (hab : ∀ i j, a i j c = b i j c) :
    slope_y a h w rf c = slope_y b h w rf c := by
  unfold slope_y
  rw [rowmeans_congr hab]

theorem slope_x_congr {a b : Image3} {h w rf c : ℕ} (hab : ∀ i j, a i j c = b i j c) :
    slope_x a h w rf c = slope_x b h w rf c := by
  unfold slope_x
  rw [colmeans_congr hab]

theorem corr_step_other {h w rf : ℕ} {img : Image3} {a c : ℕ} (hca : c ≠ a) (i j : ℕ) :
    corr_step h w rf img a i j c = img i j c := by
  simp [corr_step, if_neg hca]

theorem corr_fold (h w rf i j c : ℕ) :
    ∀ L : List ℕ, L.Nodup → ∀ img : Image3,
      L.foldl (corr_step h w rf) img i j c =
        if c ∈ L then
          img i j c - gradient_at (slope_x img h w rf c) (slope_y img h w rf c) h w i j
        else img i j c := by
  intro L
  induction L with
  | nil => intro _ img; simp
  | cons a L ih =>
    intro hnd img
    obtain ⟨haL, hnd'⟩ := List.nodup_cons.1 hnd
    rw [List.foldl_cons, ih hnd' (corr_step h w rf img a)]
    by_cases hc : c = a
    · subst hc
      rw [if_neg haL, if_pos (List.mem_cons_self c L)]
      simp [corr_step]
    · have hagree : ∀ i' j', corr_step h w rf img a i' j' c = img i' j' c :=
        fun i' j' => corr_step_other hc i' j'
      by_cases hm : c ∈ L
      · rw [if_pos hm, if_pos (List.mem_cons_of_mem a hm),
          hagree i j, slope_x_congr hagree, slope_y_congr hagree]
      · rw [if_neg hm, if_neg (by
          intro hmem
          rcases List.mem_cons.1 hmem with rfl | hmem'
          · exact hc rfl
          · exact hm hmem')]
        exact hagree i j

/-- C4: for every channel `c < colors` and every pixel `(i, j)` of the
image, `corr_gradient` subtracts from `image[i, j, c]` the bilinear
gradient `X * slope_x + Y * slope_y - (slope_x + slope_y) / 2`, where
`X = j/(w-1)`, `Y = i/(h-1)` and the slopes are the sigma-clipped (sigma=2)
row/column mean-difference slopes of channel `c` of the original image
(updates of the other channel planes do not affect the slope measurement
of channel `c`). -/
theorem C4_gradient_correction (img : Image3) (h w colors rf c i j : ℕ)
    (hc : c < colors) (hi : i < h) (hj : j < w) :
    corr_gradient img h w colors rf i j c =
      img i j c -
        ((j : ℚ) / ((w : ℚ) - 1) * slope_x img h w rf c +
         (i : ℚ) / ((h : ℚ) - 1) * slope_y img h w rf c -
         (slope_x img h w rf c + slope_y img h w rf c) / 2) := by
  unfold corr_gradient
  rw [corr_fold h w rf i j c (List.range colors) (List.nodup_range colors) img,
    if_pos (List.mem_range.2 hc)]
  rfl

/-- C4 witness: channel `0` of a constant single-channel 22×21 image. -/
theorem C4_gradient_correction_witness :
    ((0 : ℕ) < 1 ∧ (3 : ℕ) < 22 ∧ (5 : ℕ) < 21) ∧
    corr_gradient (fun _ _ _ => (5 : ℚ)) 22 21 1 4 3 5 0 =
      (fun _ _ _ => (5 : ℚ)) 3 5 0 -
        (((5 : ℕ) : ℚ) / (((21 : ℕ) : ℚ) - 1) * slope_x (fun _ _ _ => (5 : ℚ)) 22 21 4 0 +
         ((3 : ℕ) : ℚ) / (((22 : ℕ) : ℚ) - 1) * slope_y (fun _ _ _ => (5 : ℚ)) 22 21 4 0 -
         (slope_x (fun _ _ _ => (5 : ℚ)) 22 21 4 0 + slope_y (fun _ _ _ => (5 : ℚ)) 22 21 4 0) / 2) := by
  exact ⟨⟨by decide, by decide, by decide⟩,
    C4_gradient_correction (fun _ _ _ => (5 : ℚ)) 22 21 1 4 0 3 5
      (by decide) (by decide) (by decide)⟩

/-- The per-radius sample bins of `calc_rad_profile` (`rad_counts[rad]`,
source line 191): the R samples, the pooled green samples (channels 1 and
2 share this list), and the B samples. -/
abbrev Bins : Type := List ℚ × List ℚ × List ℚ

/-- The three pixel filters of `calc_rad_profile` (source lines 183-188),
in the source's order: positivity of all four channel values, the edge
margin, and the sampling stride. -/
def passes_filters (img : Image3) (h w rf i j : ℕ) : Prop :=
  (0 < img i j 0 ∧ 0 < img i j 1 ∧ 0 < img i j 2 ∧ 0 < img i j 3) ∧
  ¬(i < IGNORE_EDGE ∨ j < IGNORE_EDGE ∨
    (i : ℤ) > (h : ℤ) - (IGNORE_EDGE : ℤ) ∨ (j : ℤ) > (w : ℤ) - (IGNORE_EDGE : ℤ)) ∧
  (i % rf = 0 ∧ j % rf = 0)

instance (img : Image3) (h w rf i j : ℕ) : Decidable (passes_filters img h w rf i j) := by
  unfold passes_filters
  infer_instance

/-- The pixels of an `h × w` image in the iteration order of the source's
nested loop (source lines 180-181): row-major, `i` outer, `j` inner. -/
def pixel_list (h w : ℕ) : List (ℕ × ℕ) :=
  (List.range h).bind fun i => (List.range w).map fun j => (i, j)

/-- One iteration of the accumulation loop of `calc_rad_profile` (source
lines 180-195): compute the integer radius, skip the pixel unless it passes
all filters, record the radius on first sight, and append channel 0 to the
R bin, channels 1 and 2 both to the shared green bin, and channel 3 to the
B bin of that radius. -/
def rad_step (img : Image3) (h w rf : ℕ) (st : List ℕ × (ℕ → Bins)) (p : ℕ × ℕ) :
    List ℕ × (ℕ → Bins) :=
  let rad := int_dist p.1 p.2 h w
  if passes_filters img h w rf p.1 p.2 then
    (if rad ∈ st.1 then st.1 else st.1 ++ [rad],
     fun r =>
       if r = rad then
         ((st.2 rad).1 ++ [img p.1 p.2 0],
          (st.2 rad).2.1 ++ [img p.1 p.2 1, img p.1 p.2 2],
          (st.2 rad).2.2 ++ [img p.1 p.2 3])
       else st.2 r)
  else st

/-- The completed accumulation of `calc_rad_profile`: the list of observed
radii (in order of first sight) and the per-radius bins. -/
def rad_acc (img : Image3) (h w rf : ℕ) : List ℕ × (ℕ → Bins) :=
  (pixel_list h w).foldl (rad_step img h w rf) ([], fun _ => ([], [], []))

/-- The number of rows of the binned radial profile.  One profile row is
produced per observed radius (source lines 196-208); in this exact-rational
model the applied statistics never produce NaN on the nonempty bins of an
observed radius, so the NaN row filter of source line 209 drops nothing. -/
def num_profile_rows (img : Image3) (h w rf : ℕ) : ℕ := (rad_acc img h w rf).1.length

/-- The data-quality check of `calc_rad_profile` (source lines 212-214):
the condition under which the source reports
`"Something ist wrong!! Interrupt!"` — the profile has at most
`IGNORE_RADII * 2` rows (`not rad_profile.shape[0] > IGNORE_RADII * 2`). -/
def insufficient_radial_data (img : Image3) (h w rf : ℕ) : Prop :=
  ¬ num_profile_rows img h w rf > IGNORE_RADII * 2

theorem rad_fold_counts (img : Image3) (h w rf : ℕ) :
    ∀ (ps : List (ℕ × ℕ)) (st : List ℕ × (ℕ → Bins)),
      (∀ r, (st.2 r).2.1.length = 2 * (st.2 r).1.length ∧
            (st.2 r).2.1.length = 2 * (st.2 r).2.2.length) →
      ∀ r, ((ps.foldl (rad_step img h w rf) st).2 r).2.1.length =
              2 * ((ps.foldl (rad_step img h w rf) st).2 r).1.length ∧
           ((ps.foldl (rad_step img h w rf) st).2 r).2.1.length =
              2 * ((ps.foldl (rad_step img h w rf) st).2 r).2.2.length := by
  intro ps
  induction ps with
  | nil => intro st hst r; exact hst r
  | cons p ps ih =>
    intro st hst r
    rw [List.foldl_cons]
    refine ih (rad_step img h w rf st p) ?_ r
    intro r'
    unfold rad_step
    by_cases hp : passes_filters img h w rf p.1 p.2
    · rw [if_pos hp]
      dsimp only
      by_cases hr' : r' = int_dist p.1 p.2 h w
      · rw [if_pos hr']
        obtain ⟨hg1, hg2⟩ := hst (int_dist p.1 p.2 h w)
        simp only [List.length_append, List.length_cons, List.length_singleton,
          List.length_nil]
        omega
      · rw [if_neg hr']
        exact hst r'
    · rw [if_neg hp]
      exact hst r'

/-- C2: in `calc_rad_profile`, channels 1 and 2 (the two green Bayer
planes) of every pixel passing the positivity, edge-margin and stride
filters are appended to one shared green bin of the pixel's integer
radius, while channel 0 and channel 3 go to the separate R and B bins;
consequently, for every radius, the green bin holds exactly twice as many
samples as the R bin and exactly twice as many as the B bin. -/
theorem C2_pooled_green_counts (img : Image3) (h w rf : ℕ) (hrf : 0 < rf) (rad : ℕ) :
    ((rad_acc img h w rf).2 rad).2.1.length = 2 * ((rad_acc img h w rf).2 rad).1.length ∧
    ((rad_acc img h w rf).2 rad).2.1.length = 2 * ((rad_acc img h w rf).2 rad).2.2.length := by
  unfold rad_acc
  exact rad_fold_counts img h w rf (pixel_list h w) ([], fun _ => ([], [], []))
    (fun r => ⟨rfl, rfl⟩) rad

/-- C2 witness: a constant positive 22×22 image at stride 2; radius 1
collects four pixels, hence 8 green, 4 red, 4 blue samples (the counts
relation is what the theorem certifies). -/
theorem C2_pooled_green_counts_witness :
    (0 : ℕ) < 2 ∧
    (((rad_acc (fun _ _ _ => (1 : ℚ)) 22 22 2).2 1).2.1.length =
       2 * ((rad_acc (fun _ _ _ => (1 : ℚ)) 22 22 2).2 1).1.length ∧
     ((rad_acc (fun _ _ _ => (1 : ℚ)) 22 22 2).2 1).2.1.length =
       2 * ((rad_acc (fun _ _ _ => (1 : ℚ)) 22 22 2).2 1).2.2.length) :=
  ⟨by decide, C2_pooled_green_counts (fun _ _ _ => (1 : ℚ)) 22 22 2 (by decide) 1⟩

theorem rad_fold_skip (img : Image3) (h w rf : ℕ) :
    ∀ (ps : List (ℕ × ℕ)) (st : List ℕ × (ℕ → Bins)),
      (∀ p ∈ ps, ¬ passes_filters img h w rf p.1 p.2) →
      ps.foldl (rad_step img h w rf) st = st := by
  intro ps
  induction ps with
  | nil => intro st _; rfl
  | cons p ps ih =>
    intro st hps
    rw [List.foldl_cons]
    have hstep : rad_step img h w rf st p = st := by
      unfold rad_step
      rw [if_neg (hps p (List.mem_cons_self p ps))]
    rw [hstep]
    exact ih st fun q hq => hps q (List.mem_cons_of_mem p hq)

theorem mem_pixel_list {h w : ℕ} {p : ℕ × ℕ} (hp : p ∈ pixel_list h w) :
    p.1 < h ∧ p.2 < w := by
  unfold pixel_list at hp
  rcases List.mem_bind.1 hp with ⟨i, hi, hmap⟩
  rcases List.mem_map.1 hmap with ⟨j, hj, rfl⟩
  exact ⟨List.mem_range.1 hi, List.mem_range.1 hj⟩

/-- C6: if every pixel of the image fails the positivity validity check,
no pixel is accumulated, so the radial profile is empty and the
insufficient-radial-data condition (at most `2 * IGNORE_RADII` valid
radii) holds and is reported by `calc_rad_profile` (source lines 212-214
print the warning and the pipeline continues) instead of the empty profile
passing silently. -/
theorem C6_all_invalid_insufficient (img : Image3) (h w rf : ℕ)
    (hfail : ∀ i j, i < h → j < w →
      ¬(0 < img i j 0 ∧ 0 < img i j 1 ∧ 0 < img i j 2 ∧ 0 < img i j 3)) :
    (rad_acc img h w rf).1 = [] ∧ insufficient_radial_data img h w rf := by
  have hnone : ∀ p ∈ pixel_list h w, ¬ passes_filters img h w rf p.1 p.2 := by
    intro p hp hpass
    obtain ⟨h1, h2⟩ := mem_pixel_list hp
    exact hfail p.1 p.2 h1 h2 hpass.1
  have hacc : rad_acc img h w rf = ([], fun _ => ([], [], [])) :=
    rad_fold_skip img h w rf (pixel_list h w) ([], fun _ => ([], [], [])) hnone
  constructor
  · rw [hacc]
  · unfold insufficient_radial_data num_profile_rows
    rw [hacc]
    simp [IGNORE_RADII]

/-- C6 witness: the all-zero 3×3 image (every pixel fails positivity). -/
theorem C6_all_invalid_insufficient_witness :
    (∀ i j : ℕ, i < 3 → j < 3 →
      ¬(0 < (fun _ _ _ => (0 : ℚ)) i j 0 ∧ 0 < (fun _ _ _ => (0 : ℚ)) i j 1 ∧
        0 < (fun _ _ _ => (0 : ℚ)) i j 2 ∧ 0 < (fun _ _ _ => (0 : ℚ)) i j 3)) ∧
    ((rad_acc (fun _ _ _ => (0 : ℚ)) 3 3 1).1 = [] ∧
     insufficient_radial_data (fun _ _ _ => (0 : ℚ)) 3 3 1) :=
  ⟨fun _ _ _ _ hpos => absurd hpos.1 (lt_irrefl 0),
   C6_all_invalid_insufficient (fun _ _ _ => (0 : ℚ)) 3 3 1
     (fun _ _ _ _ hpos => absurd hpos.1 (lt_irrefl 0))⟩

/-- A write event of `calc_synthetic_flat`: the target pixel and the value
assigned there (both taken from one executed `im_syn[i, j] = ...`
assignment of `write_flat_pixel`, source lines 408-422). -/
abbrev SynEvent : Type := (ℕ × ℕ) × ℚ

/-- The state of the reconstruction loop: the output image `im_syn` (as a
total function, zero-initialized like `np.zeros`) together with the
chronological list of write events performed so far. -/
abbrev SynState : Type := ((ℕ × ℕ) → ℚ) × List SynEvent

/-- Perform one assignment `im_syn[p] = v`, recording the event. -/
def syn_write (st : SynState) (p : ℕ × ℕ) (v : ℚ) : SynState :=
  (fun q => if q = p then v else st.1 q, st.2 ++ [(p, v)])

/-- `write_flat_pixel` (source lines 408-422): select the profile column by
the Bayer parity of the (integer) target pixel, or column 2 for a grey
flat, and assign.  The four `if` statements of the source have mutually
exclusive conditions, exactly one of which fires, which the nested `if`
reproduces.  `rad_profile idx col` is column `col` of row `idx` of the
profile array. -/
def write_flat_pixel (rad_profile : ℕ → ℕ → ℚ) (grey_flat : Bool) (r_index i j : ℕ)
    (st : SynState) : SynState :=
  if grey_flat then syn_write st (i, j) (rad_profile r_index 2)
  else if i % 2 = 0 ∧ j % 2 = 0 then syn_write st (i, j) (rad_profile r_index 1)
  else if i % 2 = 0 ∧ j % 2 = 1 then syn_write st (i, j) (rad_profile r_index 2)
  else if i % 2 = 1 ∧ j % 2 = 0 then syn_write st (i, j) (rad_profile r_index 2)
  else syn_write st (i, j) (rad_profile r_index 3)

/-- `r_index = int((RADIAL_RESOLUTION - 1) * r)` of the source (lines
345-348), where `r = dist_from_center(i, j, h, w) / dist_from_center(0, 0, h, w)`.
With `A` and `B` the squared truncated-offset distances of the pixel and
of the corner, this is `⌊(R-1)·√A/√B⌋ = ⌊√((R-1)²·A·B)⌋ / B` exactly
(`⌊√x / B⌋ = ⌊⌊√x⌋ / B⌋` for a positive integer `B`). -/
def r_index_of (h w i j : ℕ) : ℕ :=
  isqrt ((RADIAL_RESOLUTION - 1) ^ 2 * dist_sq_of i j h w * dist_sq_of 0 0 h w) /
    dist_sq_of 0 0 h w

/-- The multiples `k` actually iterated for a pair `(di, dj)` (source lines
353-362): `k` runs over `range(1, halfheight)` and the loop `break`s at the
first `k` with `di*k ≥ halfheight - 0.5` or `dj*k ≥ halfwidth - 0.5`; on
integers those bounds are `di*k < hh` and `dj*k < hw`. -/
def k_list (hh hw di dj : ℕ) : List ℕ :=
  (List.range' 1 (hh - 1)).takeWhile fun k => decide (di * k < hh ∧ dj * k < hw)

/-- The body of the `k` loop (source lines 354-360): for an in-bounds
multiple `k`, write the four quadrant-mirrored pixels of `(di*k, dj*k)`
in the source's order `(+,+), (+,-), (-,+), (-,-)`.  With the half-pixel
centre `halfheight - 0.5`, the integer target rows are `hh + di*k` and
`hh - 1 - di*k` (likewise for columns). -/
def write_multiple (P : ℕ → ℕ → ℚ) (grey : Bool) (hh hw di dj ri : ℕ)
    (st : SynState) (k : ℕ) : SynState :=
  write_flat_pixel P grey (ri * k) (hh - 1 - di * k) (hw - 1 - dj * k)
    (write_flat_pixel P grey (ri * k) (hh - 1 - di * k) (hw + dj * k)
      (write_flat_pixel P grey (ri * k) (hh + di * k) (hw - 1 - dj * k)
        (write_flat_pixel P grey (ri * k) (hh + di * k) (hw + dj * k) st)))

/-- One iteration of the `(di, dj)` loop (source lines 328-362): if the
base pixel `(hh + di, hw + dj)` already holds a non-zero value the entire
pair is skipped (`continue`, source line 341); otherwise the profile index
of the base pixel is computed once and every in-bounds multiple `k` writes
its four mirrored pixels with profile index `r_index * k`. -/
def pair_step (P : ℕ → ℕ → ℚ) (grey : Bool) (h w hh hw : ℕ)
    (st : SynState) (d : ℕ × ℕ) : SynState :=
  if st.1 (hh + d.1, hw + d.2) ≠ 0 then st
  else
    (k_list hh hw d.1 d.2).foldl
      (write_multiple P grey hh hw d.1 d.2 (r_index_of h w (hh + d.1) (hw + d.2))) st

/-- The pairs `(di, dj)` in the iteration order of the source (lines
328-329): `di` ascending over `range(halfheight)`, `dj` ascending over
`range(halfwidth)`. -/
def pair_list (hh hw : ℕ) : List (ℕ × ℕ) :=
  (List.range hh).bind fun di => (List.range hw).map fun dj => (di, dj)

/-- The complete `(di, dj, k)` write iteration of `calc_synthetic_flat`
(source lines 328-362) on an `h × w` output (dimensions already sorted)
for a given (re-normalized) radial profile. -/
def syn_loop (P : ℕ → ℕ → ℚ) (grey : Bool) (h w : ℕ) : SynState :=
  (pair_list (h / 2) (w / 2)).foldl
    (pair_step P grey h w (h / 2) (w / 2)) (fun _ => 0, [])

/-- The value assigned by the first write event that reached pixel `p`
(zero if no write reached it). -/
def first_write_val (evts : List SynEvent) (p : ℕ × ℕ) : ℚ :=
  match evts.find? fun e => decide (e.1 = p) with
  | some e => e.2
  | none => 0

/-- The value assigned by the last write event that reached pixel `p`
(zero if no write reached it). -/
def last_write_val (evts : List SynEvent) (p : ℕ × ℕ) : ℚ :=
  evts.foldl (fun acc e => if e.1 = p then e.2 else acc) 0

/-- `sorted(tif_size)` of the source (line 315). -/
def sort_pair (t : ℕ × ℕ) : ℕ × ℕ := if t.1 ≤ t.2 then t else (t.2, t.1)

/-- The per-channel re-normalization of the profile at the top of
`calc_synthetic_flat` (source lines 321-322): divide value columns 1..3 by
their own maximum over all `RADIAL_RESOLUTION` rows. -/
def renorm_profile (P : ℕ → ℕ → ℚ) : ℕ → ℕ → ℚ :=
  fun idx c =>
    if c = 1 ∨ c = 2 ∨ c = 3 then
      P idx c / listMax ((List.range RADIAL_RESOLUTION).map fun r => P r c)
    else P idx c

/-- The 16-bit output image of `calc_synthetic_flat`. -/
structure FlatImage where
  height : ℕ
  width : ℕ
  pix : ℕ → ℕ → ℕ

/-- `np.max(im_syn)` over the `h × w` output array. -/
def syn_max (st : SynState) (h w : ℕ) : ℚ :=
  listMax ((List.range h).bind fun i => (List.range w).map fun j => st.1 (i, j))

/-- The cast `astype(np.uint16)` of a float in `[0, 65535]`: truncation,
modelled as the integer floor (clamped at zero, reduced mod 2^16). -/
def uint16_of_rat (x : ℚ) : ℕ := (⌊x⌋).toNat % 65536

/-- `calc_synthetic_flat` (source lines 309-375): sort the requested
`tif_size` ascending into `(height, width)`, re-normalize the profile,
run the `(di, dj, k)` write iteration, then scale the result by its own
maximum to 16 bit. -/
def calc_synthetic_flat (rad_profile : ℕ → ℕ → ℚ) (grey_flat : Bool)
    (tif_size : ℕ × ℕ) : FlatImage :=
  let height := (sort_pair tif_size).1
  let width := (sort_pair tif_size).2
  let st := syn_loop (renorm_profile rad_profile) grey_flat height width
  ⟨height, width,
   fun i j => uint16_of_rat ((2 ^ 16 - 1) * (st.1 (i, j) / syn_max st height width))⟩

/-- The image/event-trace invariant: the image function holds, at every
pixel, the value of the last write event that reached it. -/
def SynInv (st : SynState) : Prop := ∀ p, st.1 p = last_write_val st.2 p

theorem last_write_val_append (evts : List SynEvent) (e : SynEvent) (p : ℕ × ℕ) :
    last_write_val (evts ++ [e]) p =
      if e.1 = p then e.2 else last_write_val evts p := by
  unfold last_write_val
  rw [List.foldl_append]
  rfl

theorem syn_write_inv {st : SynState} (hst : SynInv st) (p : ℕ × ℕ) (v : ℚ) :
    SynInv (syn_write st p v) := by
  intro q
  show (if q = p then v else st.1 q) = last_write_val (st.2 ++ [(p, v)]) q
  rw [last_write_val_append]
  by_cases hq : q = p
  · subst hq
    rw [if_pos rfl, if_pos rfl]
  · rw [if_neg hq, if_neg fun h => hq h.symm]
    exact hst q

theorem write_flat_pixel_inv {st : SynState} (hst : SynInv st)
    (P : ℕ → ℕ → ℚ) (grey : Bool) (ri i j : ℕ) :
    SynInv (write_flat_pixel P grey ri i j st) := by
  unfold write_flat_pixel
  split_ifs <;> exact syn_write_inv hst _ _

theorem write_multiple_inv {st : SynState} (hst : SynInv st)
    (P : ℕ → ℕ → ℚ) (grey : Bool) (hh hw di dj ri k : ℕ) :
    SynInv (write_multiple P grey hh hw di dj ri st k) := by
  unfold write_multiple
  exact write_flat_pixel_inv (write_flat_pixel_inv (write_flat_pixel_inv
    (write_flat_pixel_inv hst P grey _ _ _) P grey _ _ _) P grey _ _ _) P grey _ _ _

theorem foldl_preserves {σ α : Type} (Q : σ → Prop) (f : σ → α → σ)
    (hf : ∀ s a, Q s → Q (f s a)) :
    ∀ (l : List α) (s : σ), Q s → Q (l.foldl f s) := by
  intro l
  induction l with
  | nil => intro s hs; exact hs
  | cons a l ih =>
    intro s hs
    rw [List.foldl_cons]
    exact ih (f s a) (hf s a hs)

theorem pair_step_inv (P : ℕ → ℕ → ℚ) (grey : Bool) (h w hh hw : ℕ)
    {st : SynState} (hst : SynInv st) (d : ℕ × ℕ) :
    SynInv (pair_step P grey h w hh hw st d) := by
  unfold pair_step
  split_ifs with hbase
  · exact hst
  · exact foldl_preserves SynInv _
      (fun s k hs => write_multiple_inv hs P grey hh hw d.1 d.2 _ k)
      (k_list hh hw d.1 d.2) st hst

/-- C1 (amended): in the `(di, dj, k)` iteration of `calc_synthetic_flat`,
the value each pixel holds when the iteration finishes is the value
assigned by the LAST write that reached it.  Only the base pixel
`(halfheight + di, halfwidth + dj)` of each pair is guarded by the
already-written check (source line 341); the writes of the `k` loop are
unconditional, so first-writer-wins does not hold (see the
counterexample). -/
theorem C1_last_writer_wins (P : ℕ → ℕ → ℚ) (grey : Bool) (h w : ℕ) (p : ℕ × ℕ) :
    (syn_loop P grey h w).1 p = last_write_val (syn_loop P grey h w).2 p := by
  have hinit : SynInv ((fun _ => 0, []) : SynState) := fun q => rfl
  exact foldl_preserves SynInv _
    (fun s d hs => pair_step_inv P grey h w (h / 2) (w / 2) hs d)
    (pair_list (h / 2) (w / 2)) (fun _ => 0, []) hinit p

/-- The concrete profile used by the C1 counterexample: row `idx` holds the
value `idx + 1` in every column (all values non-zero and pairwise
distinct). -/
def cx_profile : ℕ → ℕ → ℚ := fun idx _ => mkRat (idx + 1) 1

/-- C1 counterexample: for an 8 × 28 grey output and the profile
`cx_profile`, pixel `(4, 26)` is first written by pair `(0, 4)` at `k = 3`
with profile index `27471 * 3 = 82413` (value `82414`), and later pair
`(0, 6)` — whose own base pixel `(4, 20)` was still zero — rewrites it at
`k = 2` with profile index `41207 * 2 = 82414` (value `82415`): the value
the pixel holds at the end differs from the value of the first write that
reached it, refuting the first-writer-wins claim. -/
theorem C1_first_writer_counterexample :
    (syn_loop cx_profile true 8 28).1 (4, 26) ≠
      first_write_val (syn_loop cx_profile true 8 28).2 (4, 26) := by
  set_option maxRecDepth 100000 in decide

/-- C5 (amended): `calc_synthetic_flat` sorts the requested `tif_size`
ascending (source line 315), so the output shape is
`(min h w, max h w)` — equal to the requested `(h, w)` only when `h ≤ w`. -/
theorem C5_sorted_shape (P : ℕ → ℕ → ℚ) (grey : Bool) (ts : ℕ × ℕ) :
    (calc_synthetic_flat P grey ts).height = min ts.1 ts.2 ∧
    (calc_synthetic_flat P grey ts).width = max ts.1 ts.2 := by
  unfold calc_synthetic_flat sort_pair
  dsimp only
  split_ifs with hle
  · exact ⟨by omega, by omega⟩
  · exact ⟨by omega, by omega⟩

/-- C5 counterexample: the requested size `(6, 4)` (height > width) yields
an output of height `4`, not the requested `6`: the dimensions are sorted,
not used as given. -/
theorem C5_shape_counterexample :
    (calc_synthetic_flat (fun _ _ => (1 : ℚ)) true (6, 4)).height ≠ 6 := by
  decide

/-- `merge_green` (source lines 445-450): stack R, the mean of the two
green planes, and B into a 3-channel image.  Channels beyond 2 do not
exist in the stacked array; the total model maps them to `0`. -/
def merge_green (image : Image3) : Image3 :=
  fun i j c =>
    if c = 0 then image i j 0
    else if c = 1 then (image i j 1 + image i j 2) / 2
    else if c = 2 then image i j 3
    else 0

/-- A 3-channel image with NaN-maskable entries: `none` models `np.nan`. -/
abbrev OptImage : Type := ℕ → ℕ → ℕ → Option ℚ

/-- The circular masking loop of `calc_histograms` (source lines 147-152)
for one channel `c`: set pixel `(i, j)` of channel `c` to NaN when its
distance from the centre exceeds `height/2` or `width/2`
(`√(dx²+dy²) > h/2` is `4·(dx²+dy²) > h²` exactly). -/
def mask_circular (h w : ℕ) (img : OptImage) (c : ℕ) : OptImage :=
  fun i j c' =>
    if c' = c ∧ i < h ∧ j < w ∧
       (4 * dist_sq_of i j h w > h ^ 2 ∨ 4 * dist_sq_of i j h w > w ^ 2) then none
    else img i j c'

/-- The values of channel `c` of the (possibly masked) image, flattened in
row-major order. -/
def chan_values (img : OptImage) (h w c : ℕ) : List (Option ℚ) :=
  (List.range h).bind fun i => (List.range w).map fun j => img i j c

/-- Edge `t` of `np.linspace(0, 2**12, 2**8)` (source line 161):
`4096 * t / 255`. -/
def hist_edge (t : ℕ) : ℚ := mkRat (4096 * t) 255

/-- Count of bin `t` of `np.histogram(vals, np.linspace(0, 2**12, 2**8))`:
values in `[e_t, e_{t+1})`, the last bin `t = 254` right-inclusive; NaN
values (`none`) fall in no bin. -/
def hist_bin_count (vals : List (Option ℚ)) (t : ℕ) : ℕ :=
  vals.countP fun v? =>
    match v? with
    | none => false
    | some v =>
      decide (hist_edge t ≤ v) &&
        (if t = 254 then decide (v ≤ hist_edge 255) else decide (v < hist_edge (t + 1)))

/-- The 255 bin counts of one histogram. -/
def hist_counts (vals : List (Option ℚ)) : List ℕ :=
  (List.range 255).map (hist_bin_count vals)

/-- One iteration of the channel loop of `calc_histograms` (source lines
146-165): when `circular`, first mask channel `c` of the current working
image; then take the values — for `c == 1` the source appends channels 1
AND 2 of the (merged, 3-channel) working image — and histogram them. -/
def hist_step (h w : ℕ) (circular : Bool) (st : OptImage × List (List ℕ)) (c : ℕ) :
    OptImage × List (List ℕ) :=
  let img := if circular then mask_circular h w st.1 c else st.1
  let vals := if c = 1 then chan_values img h w 1 ++ chan_values img h w 2
              else chan_values img h w c
  (img, st.2 ++ [hist_counts vals])

/-- The channel loop of `calc_histograms` applied to an already merged
3-channel image (the working image `image_rgb` of source line 143),
returning the three per-channel bin-count columns. -/
def hist_after_merge (img3 : Image3) (h w : ℕ) (circular : Bool) : List (List ℕ) :=
  (([0, 1, 2] : List ℕ).foldl (hist_step h w circular)
    (fun i j c => some (img3 i j c), [])).2

/-- `calc_histograms` (source lines 142-166), reduced to its per-channel
bin counts (the returned `data` also carries the shared bin-edge column,
which the claims do not concern). -/
def calc_histograms (image : Image3) (h w : ℕ) (circular : Bool) : List (List ℕ) :=
  hist_after_merge (merge_green image) h w circular

/-- The number of pixels the circular restriction keeps (distance from the
centre at most `height/2` and at most `width/2`). -/
def in_circle_count (h w : ℕ) : ℕ :=
  (pixel_list h w).countP fun p =>
    decide (¬(4 * dist_sq_of p.1 p.2 h w > h ^ 2 ∨ 4 * dist_sq_of p.1 p.2 h w > w ^ 2))

/-- A single-plane Bayer mosaic image. -/
structure Mosaic where
  rows : ℕ
  cols : ℕ
  val : ℕ → ℕ → ℚ

/-- A 4-channel debayered image (R, G1, G2, B planes). -/
structure Planes4 where
  rows : ℕ
  cols : ℕ
  val : ℕ → ℕ → ℕ → ℚ

/-- `debayer` (source lines 425-442) for even dimensions: site
`(even, even) → channel 0 (R)`, `(even, odd) → channel 1 (G1)`,
`(odd, even) → channel 2 (G2)`, `(odd, odd) → channel 3 (B)`, each mosaic
site written to exactly one cell of the half-size 4-channel array, which
the pointwise form below inverts. -/
def debayer (m : Mosaic) : Planes4 :=
  ⟨m.rows / 2, m.cols / 2, fun i j c =>
    if c = 0 then m.val (2 * i) (2 * j)
    else if c = 1 then m.val (2 * i) (2 * j + 1)
    else if c = 2 then m.val (2 * i + 1) (2 * j)
    else if c = 3 then m.val (2 * i + 1) (2 * j + 1)
    else 0⟩

/-- `bayer` (source lines 453-473) on a 4-channel image: the source writes
channel 0 to `b_image[2i, 2j]`, channel 1 to `b_image[2i+1, 2j]` (line
466), channel 3 to `b_image[2i, 2j+1]` (line 470), and channel 2 — the
`else` branch — to `b_image[2i+1, 2j+1]` (line 472); each mosaic site is
written by exactly one channel, which the pointwise parity match below
inverts. -/
def bayer (p : Planes4) : Mosaic :=
  ⟨p.rows * 2, p.cols * 2, fun n q =>
    if n % 2 = 0 ∧ q % 2 = 0 then p.val (n / 2) (q / 2) 0
    else if n % 2 = 1 ∧ q % 2 = 0 then p.val (n / 2) (q / 2) 1
    else if n % 2 = 1 ∧ q % 2 = 1 then p.val (n / 2) (q / 2) 2
    else p.val (n / 2) (q / 2) 3⟩

/-- C8 (code evaluated at the failing input): on the constant-1 four-channel
4×4 image with the circular restriction enabled, the three channel
histograms sum to `11`, `27`, `11`, while the circular restriction keeps
`11` pixels.  The middle (green) channel counts `27 ≠ 11` values because
the `c == 1` branch (source line 155) appends channels 1 and 2 of the
MERGED image — the green plane (11 unmasked values) plus the entire blue
plane (16 values, not yet NaN-masked at that point) — so its bin counts do
not sum to the in-circle pixel count as the claim requires. -/
theorem C8_green_histogram_mismatch :
    (calc_histograms (fun _ _ _ => (1 : ℚ)) 4 4 true).map List.sum = [11, 27, 11] ∧
    in_circle_count 4 4 = 11 ∧
    ((calc_histograms (fun _ _ _ => (1 : ℚ)) 4 4 true).map List.sum).getD 1 0 ≠
      in_circle_count 4 4 := by
  have hm : merge_green (fun _ _ _ => (1 : ℚ)) =
      (fun _ _ c => if c ≤ 2 then (1 : ℚ) else 0) := by
    funext i j c
    unfold merge_green
    split_ifs with h0 h1 h2 h3 h4 <;> try norm_num
    all_goals omega
  unfold calc_histograms
  rw [hm]
  set_option maxRecDepth 100000 in decide

/-- C9 (code evaluated at the failing input): `bayer` does not invert
`debayer`.  On the 2×2 mosaic `[[1, 2], [3, 4]]`, `debayer` stores
`1, 2, 3, 4` as channels R, G1, G2, B of the single super-pixel, and
`bayer` writes them back as `[[1, 4], [2, 3]]`: the G1 value `2`
(originally at the even-row/odd-column site `(0, 1)`) lands at `(1, 0)`,
G2's `3` at `(1, 1)`, and B's `4` at `(0, 1)` — so the round trip moves
every non-R site, contradicting the round-trip claim (and the source's own
`rechts oben`/`links unten` comments). -/
theorem C9_bayer_debayer_no_roundtrip :
    (bayer (debayer ⟨2, 2, fun n q => mkRat (2 * n + q + 1) 1⟩)).val 0 0 = mkRat 1 1 ∧
    (bayer (debayer ⟨2, 2, fun n q => mkRat (2 * n + q + 1) 1⟩)).val 0 1 = mkRat 4 1 ∧
    (bayer (debayer ⟨2, 2, fun n q => mkRat (2 * n + q + 1) 1⟩)).val 1 0 = mkRat 2 1 ∧
    (bayer (debayer ⟨2, 2, fun n q => mkRat (2 * n + q + 1) 1⟩)).val 1 1 = mkRat 3 1 ∧
    (bayer (debayer ⟨2, 2, fun n q => mkRat (2 * n + q + 1) 1⟩)).val 0 1 ≠
      (⟨2, 2, fun n q => mkRat (2 * n + q + 1) 1⟩ : Mosaic).val 0 1 := by
  decide

/-- C7: `dist_from_center` is symmetric under swapping the two axis offsets:
whenever the (real) offset pair `(|i - h/2|, |j - w/2|)` of `(i, j)` is a
permutation of that of `(i', j')` — expressed exactly via the integers
`|2i - h|` and `|2j - w|` — the sorted memoization key and hence the computed
distance (the square root of `dist_from_center_sq`) coincide. -/
theorem C7_dist_symmetry (i j i' j' : ℤ) (h w : ℕ)
    (hperm : (abs_twice_off i h = abs_twice_off i' h ∧ abs_twice_off j w = abs_twice_off j' w) ∨
             (abs_twice_off i h = abs_twice_off j' w ∧ abs_twice_off j w = abs_twice_off i' h)) :
    dist_key i j h w = dist_key i' j' h w ∧
    dist_from_center_sq i j h w = dist_from_center_sq i' j' h w := by
  rcases hperm with ⟨h1, h2⟩ | ⟨h1, h2⟩
  · unfold dist_key dist_from_center_sq dist_dx
    rw [h1, h2]
    exact ⟨rfl, rfl⟩
  · unfold dist_key dist_from_center_sq dist_dx
    rw [h1, h2]
    constructor
    · rw [Prod.mk.injEq]
      exact ⟨min_comm _ _, max_comm _ _⟩
    · ring

/-- C7 witness: a concrete swapped-offset pair in a 10×10 image.
For `(i, j) = (2, 7)` and `(i', j') = (3, 8)` the doubled offset pairs
`(6, 4)` and `(4, 6)` are permutations of each other, and the distances
agree. -/
theorem C7_dist_symmetry_witness :
    ((abs_twice_off 2 10 = abs_twice_off 3 10 ∧ abs_twice_off 7 10 = abs_twice_off 8 10) ∨
     (abs_twice_off 2 10 = abs_twice_off 8 10 ∧ abs_twice_off 7 10 = abs_twice_off 3 10)) ∧
    (dist_key 2 7 10 10 = dist_key 3 8 10 10 ∧
     dist_from_center_sq 2 7 10 10 = dist_from_center_sq 3 8 10 10) := by
  refine ⟨by decide, C7_dist_symmetry 2 7 3 8 10 10 (by decide)⟩

end SFG
